import Mathlib

/-!
Verification of the Comment Thread Manager of the frontofficelive forum
application, a shallow embedding of `src/services/firestore.ts` and of the
mention renderer in the comment section component.

The backing document store is modelled as in-memory lists of documents:
`Store` holds the `posts` and `comments` collections; users are a list of
`UserDoc`.  Store operations mirror the client SDK semantics used by the
source: `deleteDoc` of an absent document is a no-op, `updateDoc` fails on an
absent document, `setDoc` on a fresh reference appends, an equality query is
a list filter.  `commentCount` is an `Int` because the store's atomic
increment places no lower bound on the field.

`getAllCommentDescendants` in the source is recursion that terminates only
on acyclic comment lists, so its embedding `descendantsF` carries explicit
fuel and returns `none` when the fuel is exhausted (a divergence marker);
`getAllCommentDescendants` runs it with the canonical fuel `length + 1`,
which the termination theorem shows is never exhausted on acyclic input.
-/

namespace FrontOffice

/-- The `'admin' | 'user'` union type of the source. -/
inductive Role where
  | admin
  | user
  deriving DecidableEq, Repr

/-- A document of the `comments` collection (final schema of
`src/types/firestore.ts` plus the document id, as in `ServiceComment`).
`createdAt` is an abstract timestamp. -/
structure Comment where
  id : String
  postId : String
  content : String
  authorId : String
  authorName : String
  authorUsername : String
  authorRole : Role
  createdAt : Nat
  parentId : Option String
  deriving DecidableEq, Repr

/-- A document of the `posts` collection (`FirestorePost` plus id). -/
structure Post where
  id : String
  title : String
  content : String
  authorId : String
  authorName : String
  authorRole : Role
  createdAt : Nat
  tags : List String
  commentCount : Int
  deriving DecidableEq, Repr

/-- The slice of the backing store the comment thread manager touches. -/
structure Store where
  posts : List Post
  comments : List Comment
  deriving DecidableEq, Repr

/-- Sequential effectful map in the `Option` monad: `some` of the list of
results when every application succeeds, `none` as soon as one fails. -/
def seqMap {α β : Type} (f : α → Option β) : List α → Option (List β)
  | [] => some []
  | a :: l => (f a).bind fun b => (seqMap f l).map fun bs => b :: bs

/-- Fueled embedding of `getAllCommentDescendants` (firestore.ts:312-322).
Each level filters the direct replies (`allComments.filter(c => c.parentId
=== commentId)`) and recurses into each direct reply in order, appending the
nested results after the direct replies, exactly as the source's
`forEach`/`push` loop does.  `none` means the recursion exceeded the fuel,
i.e. the source diverges at that depth. -/
def descendantsF : Nat → String → List Comment → Option (List Comment)
  | 0, _, _ => none
  | fuel + 1, commentId, allComments =>
    let directReplies := allComments.filter fun c => c.parentId == some commentId
    (seqMap (fun reply => descendantsF fuel reply.id allComments) directReplies).map
      fun nested => directReplies ++ nested.flatten

/-- `getAllCommentDescendants(commentId, allComments)` with the canonical
fuel `allComments.length + 1`, which suffices whenever the parent relation
is acyclic (see the termination theorem). -/
def getAllCommentDescendants (commentId : String) (allComments : List Comment) :
    Option (List Comment) :=
  descendantsF (allComments.length + 1) commentId allComments

/-- Helper to build a comment of the synthetic threads used by the spec's
testable properties; only the linking fields vary. -/
def mkComment (id : String) (postId : String) (parentId : Option String) : Comment :=
  { id := id, postId := postId, content := "c", authorId := "a",
    authorName := "A", authorUsername := "a", authorRole := Role.user,
    createdAt := 0, parentId := parentId }

/-- The synthetic thread of spec section 8: chain A → B → C → D (each the
parent of the next) plus a sibling reply B2 under A. -/
def exampleComments : List Comment :=
  [ mkComment "A" "p1" none,
    mkComment "B" "p1" (some "A"),
    mkComment "C" "p1" (some "B"),
    mkComment "D" "p1" (some "C"),
    mkComment "B2" "p1" (some "A") ]

example :
    (getAllCommentDescendants "A" exampleComments).map (List.map Comment.id) =
      some ["B", "B2", "C", "D"] := by decide

example :
    (getAllCommentDescendants "B" exampleComments).map (List.map Comment.id) =
      some ["C", "D"] := by decide

/-- The `where('postId','==',postId)` query over the comments collection
(step 1 of `deleteComment`). -/
def commentsOfPost (postId : String) (s : Store) : List Comment :=
  s.comments.filter fun c => c.postId == postId

/-- `deleteDoc(doc(db,'comments', id))`: deleting an absent document is a
no-op, the store semantics the idempotence property relies on. -/
def deleteDocComment (id : String) (s : Store) : Store :=
  { s with comments := s.comments.filter fun c => c.id != id }

/-- `updateDoc(doc(db,'posts', postId), { commentCount: increment(delta) })`:
fails when no such post document exists, otherwise adds `delta` to the
stored counter. -/
def updatePostCount (postId : String) (delta : Int) (s : Store) :
    Except String Store :=
  if s.posts.any fun p => p.id == postId then
    Except.ok { s with posts := s.posts.map fun p =>
      if p.id == postId then { p with commentCount := p.commentCount + delta } else p }
  else
    Except.error "No document to update"

/-- The stored `commentCount` of the post document with the given id. -/
def postCount (postId : String) (s : Store) : Option Int :=
  (s.posts.find? fun p => p.id == postId).map Post.commentCount

/-- Embedding of `deleteComment(commentId, postId)` (firestore.ts:338-380):
fetch the post's comments, compute the descendants, delete every descendant,
delete the target itself, then decrement the post's `commentCount` by
`descendants + 1` and return that total.  The outer `Option` is the
divergence marker of the descendant computation; the `Except` carries a
store failure (an absent post at the counter update). -/
def deleteComment (commentId postId : String) (s : Store) :
    Option (Except String (Store × Nat)) :=
  (getAllCommentDescendants commentId (commentsOfPost postId s)).map fun descendants =>
    let afterDescendants := descendants.foldl (fun st d => deleteDocComment d.id st) s
    let afterTarget := deleteDocComment commentId afterDescendants
    let totalDeleted : Nat := descendants.length + 1
    (updatePostCount postId (-(totalDeleted : Int)) afterTarget).map fun updated =>
      (updated, totalDeleted)

/-- Embedding of `addComment(postId, content, ...)` (firestore.ts:208-244):
build the comment document on a fresh reference id `newId` and `setDoc` it
into the comments collection.  The source performs no other store write; in
particular it never writes to the `posts` collection. -/
def addComment (newId : String) (now : Nat)
    (postId content authorId authorName authorUsername : String)
    (authorRole : Role) (parentId : Option String) (s : Store) : Store × Comment :=
  let newComment : Comment :=
    { id := newId, postId := postId, content := content, authorId := authorId,
      authorName := authorName, authorUsername := authorUsername,
      authorRole := authorRole, createdAt := now, parentId := parentId }
  ({ s with comments := s.comments ++ [newComment] }, newComment)

/-! ### Users, username validation and registration -/

/-- A document of the `users` collection (final schema), keyed by `uid`. -/
structure UserDoc where
  uid : String
  firstName : String
  lastName : String
  username : String
  email : String
  role : Role
  createdAt : Nat
  deriving DecidableEq, Repr

/-- The `{ isValid, error? }` result record of `validateUsername`. -/
structure UsernameValidation where
  isValid : Bool
  error : Option String
  deriving DecidableEq, Repr

/-- `[a-zA-Z0-9_]`: the character class of the username regex, which is also
the `\w` class of the mention regex. -/
def isWordChar (c : Char) : Bool :=
  c.isAlphanum || c == '_'

/-- Embedding of `validateUsername` (firestore.ts:16-34). -/
def validateUsername (username : String) : UsernameValidation :=
  if username = "" then
    { isValid := false, error := some "Username is required" }
  else if username.length < 3 then
    { isValid := false, error := some "Username must be at least 3 characters long" }
  else if username.length > 20 then
    { isValid := false, error := some "Username must be no more than 20 characters long" }
  else if ! username.data.all isWordChar then
    { isValid := false,
      error := some "Username can only contain letters, numbers, and underscores" }
  else
    { isValid := true, error := none }

/-- Embedding of `checkUsernameExists` (firestore.ts:62-74): an equality
query on the `username` field; store equality is exact, hence
case-sensitive. -/
def checkUsernameExists (username : String) (users : List UserDoc) : Bool :=
  users.any fun u => u.username == username

/-- `String.prototype.toLowerCase` for the ASCII usernames at hand. -/
def jsToLowerCase (s : String) : String :=
  String.mk (s.data.map Char.toLower)

/-- `String.prototype.trim`: strip leading and trailing whitespace. -/
def jsTrim (s : String) : String :=
  String.mk
    (((s.data.dropWhile Char.isWhitespace).reverse.dropWhile Char.isWhitespace).reverse)

/-- Embedding of `createUser` (firestore.ts:77-107): validate the raw
username, pre-check uniqueness with the raw username, then `setDoc` the user
document keyed by `uid`, storing `username.toLowerCase().trim()`. -/
def createUser (uid email firstName lastName username : String) (now : Nat)
    (users : List UserDoc) : Except String (List UserDoc) :=
  let validation := validateUsername username
  if validation.isValid = false then
    Except.error (validation.error.getD "")
  else if checkUsernameExists username users then
    Except.error "Username is already taken"
  else
    let userData : UserDoc :=
      { uid := uid, firstName := jsTrim firstName, lastName := jsTrim lastName,
        username := jsTrim (jsToLowerCase username), email := email,
        role := Role.user, createdAt := now }
    Except.ok (if users.any fun u => u.uid == uid then
        users.map fun u => if u.uid == uid then userData else u
      else
        users ++ [userData])

/-- The signup form's live availability check (the auth modal): the typed
value is lowercased before it is queried, so every check routed through the
UI is a check on the lowercased name. -/
def uiUsernameCheck (value : String) (users : List UserDoc) : Bool :=
  checkUsernameExists (jsToLowerCase value) users

/-! ### Mention rendering -/

/-- A rendering segment of `renderContentWithMentions`: parts that start
with `@` become mention links, every other part is literal text. -/
inductive Segment where
  | literal (s : String)
  | mention (s : String)
  deriving DecidableEq, Repr

/-- Fueled scanner for `content.split(/(@\w+)/g)`: walk the characters; at
each `@` followed by at least one word character, emit the pending literal
and the greedy mention match and continue after the match; any other
character extends the pending literal (`acc`, kept reversed).  Every step
consumes fuel and at least one character, so fuel `length + 1` suffices and
the exhaustion branch is unreachable at the canonical fuel. -/
def scanMentions : Nat → List Char → List Char → List (List Char)
  | 0, acc, rest => [acc.reverse ++ rest]
  | _ + 1, acc, [] => [acc.reverse]
  | fuel + 1, acc, c :: rest =>
    if c = '@' then
      match rest.span isWordChar with
      | ([], _) => scanMentions fuel (c :: acc) rest
      | (w, rest') => acc.reverse :: (c :: w) :: scanMentions fuel [] rest'
    else
      scanMentions fuel (c :: acc) rest

/-- `content.split(/(@\w+)/g)` as a list of strings. -/
def splitMentions (content : String) : List String :=
  (scanMentions (content.data.length + 1) [] content.data).map String.mk

/-- Embedding of `renderContentWithMentions` (comment section component,
lines 138-156): split on the mention pattern and render each part that
starts with `@` (`part.startsWith('@')`, i.e. its first character is `@`)
as a mention, every other part as literal text. -/
def renderContentWithMentions (content : String) : List Segment :=
  (splitMentions content).map fun part =>
    if part.data.head? == some '@' then Segment.mention part else Segment.literal part

/-! ### The cascade delete as a sequence of store writes -/

/-- A store write issued by the cascade delete. -/
inductive DbOp where
  | delComment (id : String)
  | updCount (postId : String) (delta : Int)
  deriving DecidableEq, Repr

/-- Effect of one write on the store. -/
def applyOp (s : Store) : DbOp → Except String Store
  | DbOp.delComment id => Except.ok (deleteDocComment id s)
  | DbOp.updCount postId delta => updatePostCount postId delta s

/-- Run writes in sequence, stopping at the first failure. -/
def runOps : List DbOp → Store → Except String Store
  | [], s => Except.ok s
  | op :: rest, s => (applyOp s op).bind (runOps rest)

/-- The sequence of store writes `deleteComment` issues, in program order:
the descendant deletes (awaited together, with no order among them), then
the target's own delete, then the counter update (firestore.ts:361-373). -/
def deleteCommentOps (commentId postId : String) (s : Store) : Option (List DbOp) :=
  (getAllCommentDescendants commentId (commentsOfPost postId s)).map fun descendants =>
    (descendants.map fun d => DbOp.delComment d.id) ++
      [DbOp.delComment commentId,
       DbOp.updCount postId (-(descendants.length + 1 : Int))]

/-- Execution under a failure oracle `bad`: writes run in sequence and
execution stops, unsuccessfully, at the first write the oracle fails,
keeping the store reached so far.  Models a remote delete failing
mid-cascade. -/
def runOpsWithFailures (bad : DbOp → Bool) : List DbOp → Store → Store × Bool
  | [], s => (s, true)
  | op :: rest, s =>
    if bad op then (s, false)
    else
      match applyOp s op with
      | Except.error _ => (s, false)
      | Except.ok s' => runOpsWithFailures bad rest s'

/-! ### Relations on comment lists -/

/-- `x` transitively replies to the comment id `cid` within the list `L`:
the descendant relation the resolver computes; together with the target it
is the "thread" of the glossary (a comment and all comments transitively
replying to it). -/
inductive DescOf (L : List Comment) (cid : String) : Comment → Prop
  | direct {x : Comment} : x ∈ L → x.parentId = some cid → DescOf L cid x
  | nested {x y : Comment} : DescOf L cid y → x ∈ L → x.parentId = some y.id →
      DescOf L cid x

/-- Walking up `parentId` links within `L` from `x` reaches the id `cid`. -/
inductive UpTo (L : List Comment) : Comment → String → Prop
  | base {x : Comment} {cid : String} : x ∈ L → x.parentId = some cid → UpTo L x cid
  | step {x y : Comment} {cid : String} : x ∈ L → x.parentId = some y.id → y ∈ L →
      UpTo L y cid → UpTo L x cid

/-- The comment list is acyclic: no comment reaches its own id by following
`parentId` links (the spec's forest invariant). -/
def Acyclic (L : List Comment) : Prop :=
  ∀ c : Comment, ¬ UpTo L c c.id

/-- All comment ids in the list are distinct (document ids key the store). -/
def NodupIds (L : List Comment) : Prop :=
  (L.map Comment.id).Nodup

/-! ### Lemmas about `seqMap` -/

theorem seqMap_isSome {α β : Type} {f : α → Option β} {l : List α}
    (h : ∀ a ∈ l, (f a).isSome) : (seqMap f l).isSome := by
  induction l with
  | nil => simp [seqMap]
  | cons a l ih =>
    obtain ⟨b, hb⟩ := Option.isSome_iff_exists.mp (h a (by simp))
    obtain ⟨bs, hbs⟩ :=
      Option.isSome_iff_exists.mp (ih fun x hx => h x (List.mem_cons_of_mem a hx))
    simp [seqMap, hb, hbs]

theorem seqMap_forall₂ {α β : Type} {f : α → Option β} :
    ∀ {l : List α} {bs : List β}, seqMap f l = some bs →
      List.Forall₂ (fun a b => f a = some b) l bs := by
  intro l
  induction l with
  | nil =>
    intro bs h
    simp only [seqMap, Option.some.injEq] at h
    subst h
    exact List.Forall₂.nil
  | cons a l ih =>
    intro bs h
    simp only [seqMap] at h
    cases hfa : f a with
    | none => rw [hfa] at h; simp at h
    | some b =>
      rw [hfa] at h
      cases hrec : seqMap f l with
      | none => rw [hrec] at h; simp at h
      | some bs' =>
        rw [hrec] at h
        simp only [Option.some_bind, Option.map_some', Option.some.injEq] at h
        subst h
        exact List.Forall₂.cons hfa (ih hrec)

theorem forall₂_mem_right {α β : Type} {R : α → β → Prop} :
    ∀ {l : List α} {bs : List β}, List.Forall₂ R l bs → ∀ {b : β}, b ∈ bs →
      ∃ a ∈ l, R a b := by
  intro l bs h
  induction h with
  | nil => intro b hb; simp at hb
  | cons hab _ ih =>
    intro b hb
    rcases List.mem_cons.mp hb with rfl | hb'
    · exact ⟨_, List.mem_cons_self _ _, hab⟩
    · obtain ⟨a', ha', hr⟩ := ih hb'
      exact ⟨a', List.mem_cons_of_mem _ ha', hr⟩

theorem forall₂_mem_left {α β : Type} {R : α → β → Prop} :
    ∀ {l : List α} {bs : List β}, List.Forall₂ R l bs → ∀ {a : α}, a ∈ l →
      ∃ b ∈ bs, R a b := by
  intro l bs h
  induction h with
  | nil => intro a ha; simp at ha
  | cons hab _ ih =>
    intro a ha
    rcases List.mem_cons.mp ha with rfl | ha'
    · exact ⟨_, List.mem_cons_self _ _, hab⟩
    · obtain ⟨b', hb', hr⟩ := ih ha'
      exact ⟨b', List.mem_cons_of_mem _ hb', hr⟩

theorem forall₂_pairwise {α β : Type} {R : α → β → Prop} {p : α → α → Prop}
    {q : β → β → Prop}
    (step : ∀ {a b a' b'}, R a b → R a' b' → p a a' → q b b') :
    ∀ {l : List α} {bs : List β}, List.Forall₂ R l bs → List.Pairwise p l →
      List.Pairwise q bs := by
  intro l bs h
  induction h with
  | nil => intro _; exact List.Pairwise.nil
  | cons hab htail ih =>
    intro hp
    rcases List.pairwise_cons.mp hp with ⟨hhead, htl⟩
    refine List.Pairwise.cons ?_ (ih htl)
    intro b' hb'
    obtain ⟨a', ha', hr⟩ := forall₂_mem_right htail hb'
    exact step hab hr (hhead a' ha')

/-! ### Soundness, closure and completeness of the descendant resolver -/

/-- Transitive replies of a transitive reply are transitive replies. -/
theorem descOf_trans {L : List Comment} {cid : String} {r x : Comment}
    (hx : DescOf L r.id x) (hr : DescOf L cid r) : DescOf L cid x := by
  induction hx with
  | direct hm hp => exact DescOf.nested hr hm hp
  | nested _ hm hp ih => exact DescOf.nested ih hm hp

theorem descendantsF_succ (fuel : Nat) (commentId : String) (allComments : List Comment) :
    descendantsF (fuel + 1) commentId allComments =
      (seqMap (fun reply => descendantsF fuel reply.id allComments)
          (allComments.filter fun c => c.parentId == some commentId)).map
        fun nested =>
          (allComments.filter fun c => c.parentId == some commentId) ++ nested.flatten :=
  rfl

/-- Members of a successful resolver run are genuine transitive replies. -/
theorem descendantsF_sound :
    ∀ {fuel : Nat} {commentId : String} {L : List Comment} {res : List Comment},
      descendantsF fuel commentId L = some res → ∀ {x : Comment}, x ∈ res →
        DescOf L commentId x := by
  intro fuel
  induction fuel with
  | zero => intro cid L res h; simp [descendantsF] at h
  | succ n ih =>
    intro cid L res h x hx
    rw [descendantsF_succ] at h
    cases hseq : seqMap (fun reply => descendantsF n reply.id L)
        (L.filter fun c => c.parentId == some cid) with
    | none => rw [hseq] at h; simp at h
    | some nss =>
      rw [hseq] at h
      simp only [Option.map_some', Option.some.injEq] at h
      subst h
      rcases List.mem_append.mp hx with hdir | hflat
      · rcases List.mem_filter.mp hdir with ⟨hmem, hpar⟩
        exact DescOf.direct hmem (by simpa using hpar)
      · obtain ⟨ns, hns, hxns⟩ := List.mem_flatten.mp hflat
        obtain ⟨r, hr, hrec⟩ := forall₂_mem_right (seqMap_forall₂ hseq) hns
        rcases List.mem_filter.mp hr with ⟨hrmem, hrpar⟩
        have hdesc : DescOf L r.id x := ih hrec hxns
        have hroot : DescOf L cid r := DescOf.direct hrmem (by simpa using hrpar)
        exact descOf_trans hdesc hroot

/-- A successful resolver run is closed under taking direct replies. -/
theorem descendantsF_closed :
    ∀ {fuel : Nat} {commentId : String} {L : List Comment} {res : List Comment},
      descendantsF fuel commentId L = some res → ∀ {x y : Comment}, y ∈ res →
        x ∈ L → x.parentId = some y.id → x ∈ res := by
  intro fuel
  induction fuel with
  | zero => intro cid L res h; simp [descendantsF] at h
  | succ n ih =>
    intro cid L res h x y hy hxL hxpar
    rw [descendantsF_succ] at h
    cases hseq : seqMap (fun reply => descendantsF n reply.id L)
        (L.filter fun c => c.parentId == some cid) with
    | none => rw [hseq] at h; simp at h
    | some nss =>
      rw [hseq] at h
      simp only [Option.map_some', Option.some.injEq] at h
      subst h
      rcases List.mem_append.mp hy with hdir | hflat
      · -- `y` is a direct reply: `x` is in the nested run rooted at `y`.
        obtain ⟨ns, hns, hrec⟩ := forall₂_mem_left (seqMap_forall₂ hseq) hdir
        cases n with
        | zero => simp [descendantsF] at hrec
        | succ m =>
          refine List.mem_append.mpr (Or.inr (List.mem_flatten.mpr ⟨ns, hns, ?_⟩))
          rw [descendantsF_succ] at hrec
          cases hseq' : seqMap (fun reply => descendantsF m reply.id L)
              (L.filter fun c => c.parentId == some y.id) with
          | none => rw [hseq'] at hrec; simp at hrec
          | some nss' =>
            rw [hseq'] at hrec
            simp only [Option.map_some', Option.some.injEq] at hrec
            subst hrec
            exact List.mem_append.mpr
              (Or.inl (List.mem_filter.mpr ⟨hxL, by simpa using hxpar⟩))
      · -- `y` is in a nested run: closure of that run by induction.
        obtain ⟨ns, hns, hyns⟩ := List.mem_flatten.mp hflat
        obtain ⟨r, _, hrec⟩ := forall₂_mem_right (seqMap_forall₂ hseq) hns
        exact List.mem_append.mpr
          (Or.inr (List.mem_flatten.mpr ⟨ns, hns, ih hrec hyns hxL hxpar⟩))

/-- Every transitive reply is found by a successful resolver run. -/
theorem descendantsF_complete {fuel : Nat} {commentId : String} {L : List Comment}
    {res : List Comment} (h : descendantsF fuel commentId L = some res)
    {x : Comment} (hx : DescOf L commentId x) : x ∈ res := by
  induction hx with
  | direct hm hp =>
    cases fuel with
    | zero => simp [descendantsF] at h
    | succ n =>
      rw [descendantsF_succ] at h
      cases hseq : seqMap (fun reply => descendantsF n reply.id L)
          (L.filter fun c => c.parentId == some commentId) with
      | none => rw [hseq] at h; simp at h
      | some nss =>
        rw [hseq] at h
        simp only [Option.map_some', Option.some.injEq] at h
        subst h
        exact List.mem_append.mpr (Or.inl (List.mem_filter.mpr ⟨hm, by simpa using hp⟩))
  | nested _ hm hp ihy => exact descendantsF_closed h ihy hm hp

/-- Exact membership characterisation of a successful resolver run. -/
theorem descendantsF_mem_iff {fuel : Nat} {commentId : String} {L : List Comment}
    {res : List Comment} (h : descendantsF fuel commentId L = some res) (x : Comment) :
    x ∈ res ↔ DescOf L commentId x :=
  ⟨fun hx => descendantsF_sound h hx, fun hx => descendantsF_complete h hx⟩

/-! ### Termination of the resolver on acyclic input -/

/-- `ChainFrom L cid [c₁, …, cₖ]`: a descending reply chain inside `L`
hanging under the id `cid`: `c₁` is a direct reply to `cid` and each later
element is a direct reply to its predecessor.  The resolver's recursion
descends along exactly these chains. -/
def ChainFrom (L : List Comment) : String → List Comment → Prop
  | _, [] => True
  | cid, c :: rest => c ∈ L ∧ c.parentId = some cid ∧ ChainFrom L c.id rest

theorem upTo_mem {L : List Comment} {x : Comment} {cid : String}
    (h : UpTo L x cid) : x ∈ L := by
  cases h with
  | base hm _ => exact hm
  | step hm _ _ _ => exact hm

/-- Auxiliary form of `upTo_through` with the reached id generalised. -/
theorem upTo_through_aux {L : List Comment} {x : Comment} {tid : String}
    (h : UpTo L x tid) : ∀ {c : Comment} {cid : String}, tid = c.id → c ∈ L →
      c.parentId = some cid → UpTo L x cid := by
  induction h with
  | base hm hpar =>
    intro c cid he hc hp
    subst he
    exact UpTo.step hm hpar hc (UpTo.base hc hp)
  | step hm hpar hy _ ih =>
    intro c cid he hc hp
    exact UpTo.step hm hpar hy (ih he hc hp)

/-- Extend an upward walk one step past the comment whose id it reached. -/
theorem upTo_through {L : List Comment} {x c : Comment} {cid : String}
    (h : UpTo L x c.id) (hc : c ∈ L) (hp : c.parentId = some cid) : UpTo L x cid :=
  upTo_through_aux h rfl hc hp

theorem chainFrom_upTo {L : List Comment} :
    ∀ {l : List Comment} {cid : String} {x : Comment},
      ChainFrom L cid l → x ∈ l → UpTo L x cid := by
  intro l
  induction l with
  | nil => intro cid x _ hx; simp at hx
  | cons c rest ih =>
    intro cid x hchain hx
    obtain ⟨hcL, hcp, hrest⟩ := hchain
    rcases List.mem_cons.mp hx with rfl | hx'
    · exact UpTo.base hcL hcp
    · exact upTo_through (ih hrest hx') hcL hcp

theorem chainFrom_nodup {L : List Comment} (hA : Acyclic L) :
    ∀ {l : List Comment} {cid : String}, ChainFrom L cid l → l.Nodup := by
  intro l
  induction l with
  | nil => intro cid _; exact List.nodup_nil
  | cons c rest ih =>
    intro cid hchain
    obtain ⟨hcL, hcp, hrest⟩ := hchain
    refine List.nodup_cons.mpr ⟨?_, ih hrest⟩
    intro hmem
    exact hA c (chainFrom_upTo hrest hmem)

/-- On an acyclic list a descending reply chain never repeats a comment, so
its length is bounded by the size of the list. -/
theorem chainFrom_length_le {L : List Comment} (hA : Acyclic L)
    {l : List Comment} {cid : String} (h : ChainFrom L cid l) :
    l.length ≤ L.length :=
  (List.subperm_of_subset (chainFrom_nodup hA h)
    fun _ hx => upTo_mem (chainFrom_upTo h hx)).length_le

/-- The resolver succeeds whenever the fuel exceeds every descending chain. -/
theorem descendantsF_isSome :
    ∀ {fuel : Nat} {cid : String} {L : List Comment},
      (∀ l, ChainFrom L cid l → l.length < fuel) →
        (descendantsF fuel cid L).isSome := by
  intro fuel
  induction fuel with
  | zero =>
    intro cid L h
    exact absurd (h [] trivial) (by simp)
  | succ n ih =>
    intro cid L h
    rw [descendantsF_succ]
    have hsome : (seqMap (fun reply => descendantsF n reply.id L)
        (L.filter fun c => c.parentId == some cid)).isSome := by
      refine seqMap_isSome ?_
      intro r hr
      rcases List.mem_filter.mp hr with ⟨hrL, hrp⟩
      refine ih ?_
      intro l hl
      have hchain : ChainFrom L cid (r :: l) := ⟨hrL, by simpa using hrp, hl⟩
      have hlen := h (r :: l) hchain
      simp only [List.length_cons] at hlen
      omega
    obtain ⟨nss, hnss⟩ := Option.isSome_iff_exists.mp hsome
    simp [hnss]

/-- Pointwise upgrade of a successful `seqMap` run. -/
theorem seqMap_congr_some {α β : Type} {f g : α → Option β} :
    ∀ {l : List α} {bs : List β}, seqMap f l = some bs →
      (∀ a ∈ l, ∀ v, f a = some v → g a = some v) → seqMap g l = some bs := by
  intro l
  induction l with
  | nil => intro bs h _; exact h
  | cons a l ih =>
    intro bs h hfg
    simp only [seqMap] at h ⊢
    cases hfa : f a with
    | none => rw [hfa] at h; simp at h
    | some b =>
      rw [hfa] at h
      cases hrec : seqMap f l with
      | none => rw [hrec] at h; simp at h
      | some bs' =>
        rw [hrec] at h
        rw [hfg a (List.mem_cons_self a l) b hfa,
          ih hrec fun x hx => hfg x (List.mem_cons_of_mem a hx)]
        exact h

/-- A successful resolver run is stable under adding fuel: the recursion
needs no bound beyond what makes it terminate. -/
theorem descendantsF_mono :
    ∀ {n : Nat} {cid : String} {L res : List Comment},
      descendantsF n cid L = some res → ∀ {m : Nat}, n ≤ m →
        descendantsF m cid L = some res := by
  intro n
  induction n with
  | zero => intro cid L res h; simp [descendantsF] at h
  | succ k ih =>
    intro cid L res h m hm
    obtain ⟨m', rfl⟩ : ∃ m', m = m' + 1 := ⟨m - 1, by omega⟩
    rw [descendantsF_succ] at h ⊢
    cases hseq : seqMap (fun reply => descendantsF k reply.id L)
        (L.filter fun c => c.parentId == some cid) with
    | none => rw [hseq] at h; simp at h
    | some nss =>
      rw [hseq] at h
      have hseq' : seqMap (fun reply => descendantsF m' reply.id L)
          (L.filter fun c => c.parentId == some cid) = some nss :=
        seqMap_congr_some hseq fun r _ v hv => ih hv (by omega)
      rw [hseq']
      exact h

/-- Acyclicity from a depth measure that shrinks along `parentId` links;
instantiable by `decide` on concrete lists. -/
theorem acyclic_of_rank (L : List Comment) (rk : String → Nat)
    (h : ∀ x ∈ L, ∀ y ∈ L, x.parentId = some y.id → rk y.id < rk x.id) :
    Acyclic L := by
  have key : ∀ {x : Comment} {cid : String}, UpTo L x cid →
      ∀ y ∈ L, y.id = cid → rk cid < rk x.id := by
    intro x cid hup
    induction hup with
    | base hm hp =>
      intro y hy hyid
      have := h _ hm _ hy (by rw [hyid]; exact hp)
      rwa [hyid] at this
    | step hm hp hz _ ih =>
      intro y hy hyid
      exact Nat.lt_trans (ih y hy hyid) (h _ hm _ hz hp)
  intro c hup
  exact absurd (key hup c (upTo_mem hup) rfl) (Nat.lt_irrefl _)

/-! ### The resolver never lists a comment twice (acyclic, distinct ids) -/

theorem descOf_mem {L : List Comment} {cid : String} {x : Comment}
    (h : DescOf L cid x) : x ∈ L := by
  cases h with
  | direct hm _ => exact hm
  | nested _ hm _ => exact hm

theorem descOf_upTo {L : List Comment} {cid : String} {x : Comment}
    (h : DescOf L cid x) : UpTo L x cid := by
  induction h with
  | direct hm hp => exact UpTo.base hm hp
  | nested hdesc hm hp ih => exact UpTo.step hm hp (descOf_mem hdesc) ih

theorem nodupIds_inj {L : List Comment} (hN : NodupIds L) {x y : Comment}
    (hx : x ∈ L) (hy : y ∈ L) (he : x.id = y.id) : x = y :=
  List.inj_on_of_nodup_map hN hx hy he

/-- Two upward walks from the same comment are comparable: they reach the
same id, or the comment carrying one reached id continues up to the other.
Uses distinctness of ids, which makes the upward walk deterministic. -/
theorem upTo_fork {L : List Comment} (hN : NodupIds L) {x : Comment} {i : String}
    (h1 : UpTo L x i) :
    ∀ {j : String}, UpTo L x j → i = j ∨
      (∃ c ∈ L, c.id = i ∧ UpTo L c j) ∨ (∃ c ∈ L, c.id = j ∧ UpTo L c i) := by
  induction h1 with
  | @base x' i' hm hpar =>
    intro j h2
    cases h2 with
    | base hm2 hpar2 =>
      left
      rw [hpar] at hpar2
      exact Option.some.inj hpar2
    | @step _ y' _ hm2 hpar2 hy2 hup2 =>
      right; left
      rw [hpar] at hpar2
      exact ⟨y', hy2, (Option.some.inj hpar2).symm, hup2⟩
  | @step x' y' i' hm hpar hy hup ih =>
    intro j h2
    cases h2 with
    | base hm2 hpar2 =>
      right; right
      rw [hpar] at hpar2
      exact ⟨y', hy, Option.some.inj hpar2, hup⟩
    | @step _ z' _ hm2 hpar2 hz2 hup2 =>
      rw [hpar] at hpar2
      have hzy : y' = z' := nodupIds_inj hN hy hz2 (Option.some.inj hpar2)
      subst hzy
      exact ih hup2

/-- Two direct replies to the same id cannot sit above one another: an
upward walk from one sibling to the other closes a cycle. -/
theorem sibling_cycle {L : List Comment} (hA : Acyclic L) {a b : Comment}
    {cid : String} (hb : b ∈ L) (hap : a.parentId = some cid)
    (hbp : b.parentId = some cid) (h : UpTo L a b.id) : False := by
  cases h with
  | base hm hpar =>
    rw [hap] at hpar
    have hcid : cid = b.id := Option.some.inj hpar
    exact hA b (UpTo.base hb (by rw [hbp, hcid]))
  | step hm hpar hy hup =>
    rw [hap] at hpar
    have hcid : cid = _ := Option.some.inj hpar
    exact hA b (UpTo.step hb (by rw [hbp, hcid]) hy hup)

/-- Subtrees hanging under distinct direct replies to the same id are
disjoint. -/
theorem branches_disjoint {L : List Comment} (hA : Acyclic L) (hN : NodupIds L)
    {ri rj x : Comment} {cid : String} (hri : ri ∈ L) (hrj : rj ∈ L)
    (hpi : ri.parentId = some cid) (hpj : rj.parentId = some cid)
    (hne : ri.id ≠ rj.id) (h1 : UpTo L x ri.id) (h2 : UpTo L x rj.id) : False := by
  rcases upTo_fork hN h1 h2 with he | ⟨c, hc, hcid, hcup⟩ | ⟨c, hc, hcid, hcup⟩
  · exact hne he
  · have hcri : c = ri := nodupIds_inj hN hc hri hcid
    subst hcri
    exact sibling_cycle hA hrj hpi hpj hcup
  · have hcrj : c = rj := nodupIds_inj hN hc hrj hcid
    subst hcrj
    exact sibling_cycle hA hri hpj hpi hcup

/-- On an acyclic list with distinct ids a successful resolver run lists
each comment at most once, and everything it lists sits below the target. -/
theorem descendantsF_nodup {L : List Comment} (hA : Acyclic L) (hN : NodupIds L) :
    ∀ {fuel : Nat} {cid : String} {res : List Comment},
      descendantsF fuel cid L = some res →
        res.Nodup ∧ ∀ x ∈ res, UpTo L x cid := by
  intro fuel
  induction fuel with
  | zero => intro cid res h; simp [descendantsF] at h
  | succ n ih =>
    intro cid res h
    rw [descendantsF_succ] at h
    cases hseq : seqMap (fun reply => descendantsF n reply.id L)
        (L.filter fun c => c.parentId == some cid) with
    | none => rw [hseq] at h; simp at h
    | some nss =>
      rw [hseq] at h
      simp only [Option.map_some', Option.some.injEq] at h
      subst h
      have hf2 := seqMap_forall₂ hseq
      have hmemdir : ∀ r ∈ (L.filter fun c => c.parentId == some cid),
          r ∈ L ∧ r.parentId = some cid := by
        intro r hr
        rcases List.mem_filter.mp hr with ⟨hrL, hrp⟩
        exact ⟨hrL, by simpa using hrp⟩
      have hdirN : (L.filter fun c => c.parentId == some cid).Nodup :=
        (List.Nodup.of_map Comment.id hN).filter _
      have hdirIds : ((L.filter fun c => c.parentId == some cid).map Comment.id).Nodup :=
        hN.sublist ((List.filter_sublist L).map Comment.id)
      have hdirPW : List.Pairwise (fun a b : Comment => a.id ≠ b.id)
          (L.filter fun c => c.parentId == some cid) :=
        (List.pairwise_map.mp hdirIds)
      have hf2' : List.Forall₂
          (fun r ns => r ∈ (L.filter fun c => c.parentId == some cid) ∧
            descendantsF n r.id L = some ns)
          (L.filter fun c => c.parentId == some cid) nss :=
        (List.forall₂_and_left _ _).mpr ⟨fun _ ha => ha, hf2⟩
      have hflatN : nss.flatten.Nodup := by
        refine List.nodup_flatten.mpr ⟨?_, ?_⟩
        · intro ns hns
          obtain ⟨_, _, hrec⟩ := forall₂_mem_right hf2 hns
          exact (ih hrec).1
        · refine forall₂_pairwise ?_ hf2' hdirPW
          intro a ns a' ns' ha ha' hne x hx hx'
          obtain ⟨haL, hap⟩ := hmemdir a ha.1
          obtain ⟨haL', hap'⟩ := hmemdir a' ha'.1
          exact branches_disjoint hA hN haL haL' hap hap' hne
            ((ih ha.2).2 x hx) ((ih ha'.2).2 x hx')
      have hdisj : List.Disjoint
          (L.filter fun c => c.parentId == some cid) nss.flatten := by
        intro x hxd hxf
        obtain ⟨ns, hns, hxns⟩ := List.mem_flatten.mp hxf
        obtain ⟨r, hr, hrec⟩ := forall₂_mem_right hf2 hns
        obtain ⟨hrL, hrp⟩ := hmemdir r hr
        obtain ⟨_, hxp⟩ := hmemdir x hxd
        exact sibling_cycle hA hrL hxp hrp ((ih hrec).2 x hxns)
      refine ⟨List.Nodup.append hdirN hflatN hdisj, ?_⟩
      intro x hx
      rcases List.mem_append.mp hx with hxd | hxf
      · obtain ⟨hxL, hxp⟩ := hmemdir x hxd
        exact UpTo.base hxL hxp
      · obtain ⟨ns, hns, hxns⟩ := List.mem_flatten.mp hxf
        obtain ⟨r, hr, hrec⟩ := forall₂_mem_right hf2 hns
        obtain ⟨hrL, hrp⟩ := hmemdir r hr
        exact upTo_through ((ih hrec).2 x hxns) hrL hrp

/-! ### Store-level lemmas for the cascade delete -/

/-- The guard of the counter update: a post document with this id exists. -/
def postExists (postId : String) (s : Store) : Bool :=
  s.posts.any fun p => p.id == postId

theorem foldl_del_comments (ds : List Comment) :
    ∀ s : Store, (ds.foldl (fun st d => deleteDocComment d.id st) s).comments =
      s.comments.filter fun c => ds.all fun d => c.id != d.id := by
  induction ds with
  | nil =>
    intro s
    simp [List.filter_eq_self]
  | cons d ds ih =>
    intro s
    rw [List.foldl_cons, ih]
    show ((s.comments.filter fun c => c.id != d.id).filter
        fun c => ds.all fun d' => c.id != d'.id) = _
    rw [List.filter_filter]
    refine List.filter_congr ?_
    intro c _
    simp only [List.all_cons]
    exact Bool.and_comm _ _

theorem foldl_del_posts (ds : List Comment) :
    ∀ s : Store, (ds.foldl (fun st d => deleteDocComment d.id st) s).posts = s.posts := by
  induction ds with
  | nil => intro s; rfl
  | cons d ds ih => intro s; rw [List.foldl_cons, ih]; rfl

/-- Removing one present id from a list with distinct ids drops exactly one
document. -/
theorem filter_ne_id_length :
    ∀ {C : List Comment}, NodupIds C → ∀ {i : String}, (∃ c ∈ C, c.id = i) →
      (C.filter fun c => c.id != i).length = C.length - 1 := by
  intro C
  induction C with
  | nil =>
    intro _ i h
    obtain ⟨c, hc, _⟩ := h
    simp at hc
  | cons c C' ih =>
    intro hN i h
    have hN' : NodupIds C' := by
      simpa [NodupIds, List.nodup_cons] using (List.nodup_cons.mp hN).2
    have hcid : c.id ∉ C'.map Comment.id := (List.nodup_cons.mp hN).1
    by_cases hci : c.id = i
    · have hall : ∀ x ∈ C', (x.id != i) = true := by
        intro x hx
        have : x.id ≠ c.id := by
          intro he
          exact hcid (he ▸ List.mem_map_of_mem Comment.id hx)
        simp [hci ▸ this]
      rw [List.filter_cons_of_neg (by simp [hci]), List.filter_eq_self.mpr hall]
      simp
    · obtain ⟨c0, hc0, hc0id⟩ := h
      have hc0' : c0 ∈ C' := by
        rcases List.mem_cons.mp hc0 with rfl | hmem
        · exact absurd hc0id hci
        · exact hmem
      have hpos : 0 < C'.length := List.length_pos_of_mem hc0'
      rw [List.filter_cons_of_pos (by simp [hci])]
      have := ih hN' ⟨c0, hc0', hc0id⟩
      simp only [List.length_cons, this]
      omega

/-- Removing a duplicate-free list of present ids from a list with distinct
ids drops exactly one document per id. -/
theorem filter_ids_length :
    ∀ (I : List String) (C : List Comment), NodupIds C → I.Nodup →
      (∀ i ∈ I, ∃ c ∈ C, c.id = i) →
      (C.filter fun c => I.all fun i => c.id != i).length = C.length - I.length := by
  intro I
  induction I with
  | nil =>
    intro C _ _ _
    simp [List.filter_eq_self]
  | cons i I' ih =>
    intro C hN hI hpres
    have hsplit : (C.filter fun c => (i :: I').all fun i' => c.id != i') =
        (C.filter fun c => c.id != i).filter fun c => I'.all fun i' => c.id != i' := by
      rw [List.filter_filter]
      refine List.filter_congr ?_
      intro c _
      simp only [List.all_cons]
      exact (Bool.and_comm _ _).symm
    rw [hsplit]
    have hNC' : NodupIds (C.filter fun c => c.id != i) :=
      hN.sublist ((List.filter_sublist C).map Comment.id)
    have hlen : (C.filter fun c => c.id != i).length = C.length - 1 :=
      filter_ne_id_length hN (hpres i (List.mem_cons_self i I'))
    have hI' : I'.Nodup := (List.nodup_cons.mp hI).2
    have hiI' : i ∉ I' := (List.nodup_cons.mp hI).1
    have hpres' : ∀ i' ∈ I', ∃ c ∈ (C.filter fun c => c.id != i), c.id = i' := by
      intro i' hi'
      obtain ⟨c, hc, hcid⟩ := hpres i' (List.mem_cons_of_mem i hi')
      refine ⟨c, List.mem_filter.mpr ⟨hc, ?_⟩, hcid⟩
      have : i' ≠ i := fun he => hiI' (he ▸ hi')
      simp [hcid, this]
    rw [ih _ hNC' hI' hpres', hlen]
    simp only [List.length_cons]
    omega

theorem find?_update_same (l : List Post) (pid : String) (δ : Int) :
    ((l.map fun p => if p.id == pid
        then { p with commentCount := p.commentCount + δ } else p).find?
      fun p => p.id == pid) =
    (l.find? fun p => p.id == pid).map
      fun p => { p with commentCount := p.commentCount + δ } := by
  induction l with
  | nil => rfl
  | cons p l ih =>
    by_cases hp : p.id = pid
    · have hb : (p.id == pid) = true := by simpa using hp
      simp only [List.map_cons, if_pos hb]
      rw [List.find?_cons, List.find?_cons]
      simp only [hb]
      rfl
    · have hb : ¬ (p.id == pid) = true := by simpa using hp
      have hb' : (p.id == pid) = false := by simpa using hp
      simp only [List.map_cons, if_neg hb]
      rw [List.find?_cons, List.find?_cons]
      simp only [hb']
      exact ih

theorem find?_update_other (l : List Post) (pid q : String) (δ : Int) (hq : q ≠ pid) :
    ((l.map fun p => if p.id == pid
        then { p with commentCount := p.commentCount + δ } else p).find?
      fun p => p.id == q) =
    l.find? fun p => p.id == q := by
  induction l with
  | nil => rfl
  | cons p l ih =>
    by_cases hp : p.id = pid
    · have hpq : (p.id == q) = false := by
        simp only [beq_eq_false_iff_ne, ne_eq]
        intro he
        exact hq (by rw [← he]; exact hp)
      simp only [List.map_cons, if_pos (show (p.id == pid) = true by simpa using hp)]
      rw [List.find?_cons, List.find?_cons]
      simp only [hpq]
      exact ih
    · simp only [List.map_cons, if_neg (show ¬ (p.id == pid) = true by simpa using hp)]
      rw [List.find?_cons, List.find?_cons]
      by_cases hpq : p.id = q
      · simp only [show (p.id == q) = true by simpa using hpq]
      · simp only [show (p.id == q) = false by simpa using hpq]
        exact ih

/-- Full specification of a successful counter update. -/
theorem updatePostCount_ok {s : Store} {pid : String} {δ : Int}
    (h : postExists pid s = true) :
    ∃ s', updatePostCount pid δ s = Except.ok s' ∧ s'.comments = s.comments ∧
      postCount pid s' = (postCount pid s).map (fun v => v + δ) ∧
      ∀ q, q ≠ pid → postCount q s' = postCount q s := by
  have hcond : (s.posts.any fun p => p.id == pid) = true := h
  refine ⟨{ s with posts := s.posts.map fun p => if p.id == pid
      then { p with commentCount := p.commentCount + δ } else p }, ?_, rfl, ?_, ?_⟩
  · simp only [updatePostCount]
    rw [if_pos hcond]
  · simp only [postCount]
    rw [find?_update_same]
    cases s.posts.find? fun p => p.id == pid with
    | none => rfl
    | some p => rfl
  · intro q hq
    simp only [postCount]
    rw [find?_update_other _ _ _ _ hq]

/-- On acyclic input the resolver terminates: the canonical fuel is never
exhausted, and any larger fuel computes the same result. -/
theorem getAllCommentDescendants_total {L : List Comment} (hA : Acyclic L)
    (cid : String) :
    ∃ res, getAllCommentDescendants cid L = some res ∧
      ∀ fuel, L.length + 1 ≤ fuel → descendantsF fuel cid L = some res := by
  have hbound : ∀ l, ChainFrom L cid l → l.length < L.length + 1 := fun l hl =>
    Nat.lt_succ_of_le (chainFrom_length_le hA hl)
  obtain ⟨res, hres⟩ :=
    Option.isSome_iff_exists.mp (@descendantsF_isSome (L.length + 1) cid L hbound)
  exact ⟨res, hres, fun fuel hf => descendantsF_mono hres hf⟩

theorem all_map_comp {α β : Type} (f : α → β) (p : β → Bool) (l : List α) :
    (l.map f).all p = l.all fun a => p (f a) := by
  induction l with
  | nil => rfl
  | cons a l ih => simp [List.all_cons, ih]

/-- Full specification of a successful cascade delete: the returned total,
the surviving comments, and the counter movements of every post. -/
theorem deleteComment_ok {commentId postId : String} {s : Store} {ds : List Comment}
    (hds : getAllCommentDescendants commentId (commentsOfPost postId s) = some ds)
    (hpost : postExists postId s = true) :
    ∃ s', deleteComment commentId postId s = some (Except.ok (s', ds.length + 1)) ∧
      s'.comments = s.comments.filter
        (fun c => (commentId :: ds.map Comment.id).all fun i => c.id != i) ∧
      postCount postId s' = (postCount postId s).map
        (fun v => v - (ds.length + 1 : Int)) ∧
      (∀ q, q ≠ postId → postCount q s' = postCount q s) := by
  have hposts : (deleteDocComment commentId
      (ds.foldl (fun st d => deleteDocComment d.id st) s)).posts = s.posts := by
    show (ds.foldl (fun st d => deleteDocComment d.id st) s).posts = s.posts
    exact foldl_del_posts ds s
  have hpc : ∀ q, postCount q (deleteDocComment commentId
      (ds.foldl (fun st d => deleteDocComment d.id st) s)) = postCount q s := by
    intro q
    simp only [postCount, hposts]
  have hexists2 : postExists postId (deleteDocComment commentId
      (ds.foldl (fun st d => deleteDocComment d.id st) s)) = true := by
    simp only [postExists, hposts]
    exact hpost
  obtain ⟨s3, hupd, hcom, hsame, hother⟩ :=
    @updatePostCount_ok (deleteDocComment commentId
      (ds.foldl (fun st d => deleteDocComment d.id st) s)) postId
      (-(((ds.length + 1 : Nat)) : Int)) hexists2
  refine ⟨s3, ?_, ?_, ?_, ?_⟩
  · simp only [deleteComment, hds, Option.map_some']
    rw [hupd]
    rfl
  · rw [hcom]
    show ((ds.foldl (fun st d => deleteDocComment d.id st) s).comments.filter
        fun c => c.id != commentId) = _
    rw [foldl_del_comments, List.filter_filter]
    refine List.filter_congr ?_
    intro c _
    simp only [List.all_cons, all_map_comp]
  · rw [hsame, hpc]
    cases postCount postId s with
    | none => rfl
    | some v =>
      simp only [Option.map_some', Option.some.injEq]
      omega
  · intro q hq
    rw [hother q hq, hpc q]

/-- With distinct ids, an acyclic post thread and a present target, the
cascade removes exactly `descendants + 1` comment documents. -/
theorem deleteComment_removed_count {commentId postId : String} {s : Store}
    {ds : List Comment}
    (hds : getAllCommentDescendants commentId (commentsOfPost postId s) = some ds)
    (hN : NodupIds s.comments) (hA : Acyclic (commentsOfPost postId s))
    (htgt : ∃ c ∈ commentsOfPost postId s, c.id = commentId) :
    (s.comments.filter
        (fun c => (commentId :: ds.map Comment.id).all fun i => c.id != i)).length +
      (ds.length + 1) = s.comments.length := by
  have hNL : NodupIds (commentsOfPost postId s) :=
    hN.sublist ((List.filter_sublist _).map Comment.id)
  obtain ⟨hdsN, hdsUp⟩ := descendantsF_nodup hA hNL hds
  have hdsmem : ∀ x ∈ ds, x ∈ s.comments := by
    intro x hx
    exact (List.mem_filter.mp (upTo_mem (hdsUp x hx))).1
  have hInodup : (commentId :: ds.map Comment.id).Nodup := by
    refine List.nodup_cons.mpr ⟨?_, ?_⟩
    · intro hmem
      obtain ⟨x, hx, hxid⟩ := List.mem_map.mp hmem
      exact hA x (hxid ▸ hdsUp x hx)
    · refine hdsN.map_on ?_
      intro x hx y hy hxy
      exact nodupIds_inj hNL (upTo_mem (hdsUp x hx)) (upTo_mem (hdsUp y hy)) hxy
  have hpres : ∀ i ∈ (commentId :: ds.map Comment.id), ∃ c ∈ s.comments, c.id = i := by
    intro i hi
    rcases List.mem_cons.mp hi with rfl | hi'
    · obtain ⟨c, hc, hcid⟩ := htgt
      exact ⟨c, (List.mem_filter.mp hc).1, hcid⟩
    · obtain ⟨x, hx, hxid⟩ := List.mem_map.mp hi'
      exact ⟨x, hdsmem x hx, hxid⟩
  have hsub : (commentId :: ds.map Comment.id) ⊆ s.comments.map Comment.id := by
    intro i hi
    obtain ⟨c, hc, hcid⟩ := hpres i hi
    exact List.mem_map.mpr ⟨c, hc, hcid⟩
  have hle := (List.subperm_of_subset hInodup hsub).length_le
  rw [filter_ids_length _ _ hN hInodup hpres]
  simp only [List.length_cons, List.length_map] at hle ⊢
  omega

/-! ### Executing the write sequence -/

theorem deleteDocComment_comm (a b : String) (s : Store) :
    deleteDocComment a (deleteDocComment b s) =
      deleteDocComment b (deleteDocComment a s) := by
  simp only [deleteDocComment]
  congr 1
  rw [List.filter_filter, List.filter_filter]
  exact List.filter_congr fun c _ => Bool.and_comm _ _

theorem foldl_del_perm {ds ds' : List Comment} (hp : ds.Perm ds') :
    ∀ s : Store, ds.foldl (fun st d => deleteDocComment d.id st) s =
      ds'.foldl (fun st d => deleteDocComment d.id st) s := by
  induction hp with
  | nil => intro s; rfl
  | cons x _ ih =>
    intro s
    simp only [List.foldl_cons]
    exact ih _
  | swap x y l =>
    intro s
    simp only [List.foldl_cons]
    rw [deleteDocComment_comm]
  | trans _ _ ih1 ih2 =>
    intro s
    rw [ih1 s, ih2 s]

theorem runOps_dels (ds : List Comment) :
    ∀ (tail : List DbOp) (s : Store),
      runOps ((ds.map fun d => DbOp.delComment d.id) ++ tail) s =
        runOps tail (ds.foldl (fun st d => deleteDocComment d.id st) s) := by
  induction ds with
  | nil => intro tail s; rfl
  | cons d ds ih =>
    intro tail s
    simp only [List.map_cons, List.cons_append, List.foldl_cons]
    exact ih tail _

/-- The write sequence of the cascade computes the same store transformation
as the monolithic `deleteComment` body. -/
theorem runOps_deleteSeq (ds : List Comment) (commentId postId : String) (δ : Int)
    (s : Store) :
    runOps ((ds.map fun d => DbOp.delComment d.id) ++
        [DbOp.delComment commentId, DbOp.updCount postId δ]) s =
      updatePostCount postId δ
        (deleteDocComment commentId (ds.foldl (fun st d => deleteDocComment d.id st) s)) := by
  rw [runOps_dels]
  have hbind : ∀ (x : Except String Store), x.bind Except.ok = x := by
    intro x
    cases x <;> rfl
  exact hbind _

/-- If the failure oracle fails one of the leading descendant deletes, the
run reports failure and every comment whose id is hit by none of the
descendant deletes survives — in particular the later writes never ran. -/
theorem runOpsWithFailures_dels {bad : DbOp → Bool} :
    ∀ (dels : List Comment) (s : Store) (tail : List DbOp),
      (∃ d ∈ dels, bad (DbOp.delComment d.id) = true) →
      (runOpsWithFailures bad ((dels.map fun d => DbOp.delComment d.id) ++ tail) s).2 = false ∧
      ∀ c ∈ s.comments, (∀ d ∈ dels, c.id ≠ d.id) →
        c ∈ (runOpsWithFailures bad
          ((dels.map fun d => DbOp.delComment d.id) ++ tail) s).1.comments := by
  intro dels
  induction dels with
  | nil =>
    intro s tail h
    obtain ⟨d, hd, _⟩ := h
    simp at hd
  | cons d dels ih =>
    intro s tail h
    simp only [List.map_cons, List.cons_append]
    by_cases hb : bad (DbOp.delComment d.id) = true
    · constructor
      · simp [runOpsWithFailures, hb]
      · intro c hc _
        simpa [runOpsWithFailures, hb] using hc
    · have hrest : ∃ d0 ∈ dels, bad (DbOp.delComment d0.id) = true := by
        obtain ⟨d0, hd0, hbad0⟩ := h
        rcases List.mem_cons.mp hd0 with rfl | hd0'
        · exact absurd hbad0 hb
        · exact ⟨d0, hd0', hbad0⟩
      have hstep : runOpsWithFailures bad
          (DbOp.delComment d.id :: ((dels.map fun d => DbOp.delComment d.id) ++ tail)) s =
          runOpsWithFailures bad ((dels.map fun d => DbOp.delComment d.id) ++ tail)
            (deleteDocComment d.id s) := by
        simp [runOpsWithFailures, hb, applyOp]
      rw [hstep]
      obtain ⟨hfail, hkeep⟩ := ih (deleteDocComment d.id s) tail hrest
      refine ⟨hfail, ?_⟩
      intro c hc hne
      refine hkeep c ?_ fun d' hd' => hne d' (List.mem_cons_of_mem d hd')
      show c ∈ s.comments.filter fun c => c.id != d.id
      exact List.mem_filter.mpr ⟨hc, by simpa using hne d (List.mem_cons_self d dels)⟩

/-! ### The mention scanner -/

theorem scanMentions_cons (fuel : Nat) (acc : List Char) (c : Char) (rest : List Char) :
    scanMentions (fuel + 1) acc (c :: rest) =
      if c = '@' then
        match rest.span isWordChar with
        | ([], _) => scanMentions fuel (c :: acc) rest
        | (w, rest') => acc.reverse :: (c :: w) :: scanMentions fuel [] rest'
      else
        scanMentions fuel (c :: acc) rest := rfl

theorem scanMentions_no_at :
    ∀ (cs : List Char) (fuel : Nat) (acc : List Char), cs.length < fuel →
      (∀ c ∈ cs, c ≠ '@') → scanMentions fuel acc cs = [acc.reverse ++ cs] := by
  intro cs
  induction cs with
  | nil =>
    intro fuel acc hf _
    cases fuel with
    | zero => omega
    | succ n => simp [scanMentions]
  | cons c cs ih =>
    intro fuel acc hf hno
    cases fuel with
    | zero => simp at hf
    | succ n =>
      rw [scanMentions_cons, if_neg (hno c (List.mem_cons_self c cs))]
      rw [ih n (c :: acc) (by simp only [List.length_cons] at hf; omega)
        fun x hx => hno x (List.mem_cons_of_mem c hx)]
      simp

/-! ### Concrete data for the testable properties -/

/-- Helper to build a post; only `id` and `commentCount` matter to the
properties at hand. -/
def mkPost (id : String) (commentCount : Int) : Post :=
  { id := id, title := "t", content := "x", authorId := "a", authorName := "A",
    authorRole := Role.user, createdAt := 0, tags := [], commentCount := commentCount }

/-- A store holding the synthetic thread of spec section 8 on post `p1`,
whose counter starts at the number of live comments. -/
def exampleStore : Store :=
  { posts := [mkPost "p1" 5], comments := exampleComments }

/-- Depth measure of the synthetic thread, for discharging acyclicity. -/
def exampleRank : String → Nat := fun i =>
  if i = "A" then 0 else if i = "B" then 1 else if i = "B2" then 1
  else if i = "C" then 2 else 3

/-- The descendant list the resolver computes for `A` on the synthetic
thread, in its output order. -/
def exampleDescendants : List Comment :=
  [mkComment "B" "p1" (some "A"), mkComment "B2" "p1" (some "A"),
    mkComment "C" "p1" (some "B"), mkComment "D" "p1" (some "C")]

/-- A one-post, one-comment store for the re-delete scenario. -/
def redeleteStore : Store :=
  { posts := [mkPost "p1" 1], comments := [mkComment "c1" "p1" none] }

/-- The user document `createUser` writes when registering `"JDoe_99"`. -/
def jdoeDoc : UserDoc :=
  { uid := "u1", firstName := "J", lastName := "D", username := "jdoe_99",
    email := "e@x.com", role := Role.user, createdAt := 0 }

/-! ### Claim theorems -/

/-- C1: `deleteComment` returns the total count of records deleted — equal
to the number of descendants of the target computed over the post's freshly
fetched comment list, plus 1 — and decrements that post's `commentCount` by
exactly that same number.  Hypotheses: the store keys comments by distinct
ids, the post's thread is acyclic, and the target comment and the post
document exist. -/
theorem claim1_deleteComment_total_and_decrement (commentId postId : String)
    (s : Store) (ds : List Comment)
    (hds : getAllCommentDescendants commentId (commentsOfPost postId s) = some ds)
    (hpost : postExists postId s = true) (hN : NodupIds s.comments)
    (hA : Acyclic (commentsOfPost postId s))
    (htgt : ∃ c ∈ commentsOfPost postId s, c.id = commentId) :
    ∃ s', deleteComment commentId postId s = some (Except.ok (s', ds.length + 1)) ∧
      s'.comments.length + (ds.length + 1) = s.comments.length ∧
      postCount postId s' =
        (postCount postId s).map fun v => v - (ds.length + 1 : Int) := by
  obtain ⟨s', h1, h2, h3, _⟩ := deleteComment_ok hds hpost
  refine ⟨s', h1, ?_, h3⟩
  rw [h2]
  exact deleteComment_removed_count hds hN hA htgt

/-- Witness for C1 on the synthetic thread: deleting `A` reports 5 records
deleted, removes exactly 5 comment documents and moves the counter by -5. -/
theorem claim1_witness :
    ∃ s', deleteComment "A" "p1" exampleStore = some (Except.ok (s', 5)) ∧
      s'.comments.length + 5 = exampleStore.comments.length ∧
      postCount "p1" s' = (postCount "p1" exampleStore).map fun v => v - (5 : Int) := by
  have h := claim1_deleteComment_total_and_decrement "A" "p1" exampleStore
    [mkComment "B" "p1" (some "A"), mkComment "B2" "p1" (some "A"),
      mkComment "C" "p1" (some "B"), mkComment "D" "p1" (some "C")]
    (by decide) (by decide) (by unfold NodupIds; decide)
    (acyclic_of_rank _ exampleRank (by decide))
    ⟨mkComment "A" "p1" none, by decide, rfl⟩
  simpa using h

/-- C2: on the synthetic thread A→B→C→D plus sibling B2 under A, the
resolver returns exactly the set `{B, C, D, B2}` for `A` and exactly
`{C, D}` for `B`; in general, called on a root comment of an acyclic list it
returns exactly the comments transitively replying to it — every comment of
that comment's thread, excluding the target itself. -/
theorem claim2_descendants_thread (L : List Comment) (root : Comment)
    (hA : Acyclic L) (_hroot : root ∈ L) (_htop : root.parentId = none) :
    (∃ resA, getAllCommentDescendants "A" exampleComments = some resA ∧
      (resA.map Comment.id).Perm ["B", "C", "D", "B2"]) ∧
    (∃ resB, getAllCommentDescendants "B" exampleComments = some resB ∧
      (resB.map Comment.id).Perm ["C", "D"]) ∧
    ∃ res, getAllCommentDescendants root.id L = some res ∧
      (∀ x, x ∈ res ↔ DescOf L root.id x) ∧ ∀ x ∈ res, x.id ≠ root.id := by
  refine ⟨?_, ?_, ?_⟩
  · exact ⟨[mkComment "B" "p1" (some "A"), mkComment "B2" "p1" (some "A"),
      mkComment "C" "p1" (some "B"), mkComment "D" "p1" (some "C")],
      by decide, by decide⟩
  · exact ⟨[mkComment "C" "p1" (some "B"), mkComment "D" "p1" (some "C")],
      by decide, by decide⟩
  · obtain ⟨res, hres, _⟩ := getAllCommentDescendants_total hA root.id
    have hres' : descendantsF (L.length + 1) root.id L = some res := hres
    refine ⟨res, hres, fun x => descendantsF_mem_iff hres' x, ?_⟩
    intro x hx he
    refine hA x ?_
    rw [he]
    exact descOf_upTo (descendantsF_sound hres' hx)

/-- Witness for C2: the root `A` of the synthetic thread satisfies the
hypotheses, and the resolver's output under `A` is exactly its thread. -/
theorem claim2_witness :
    Acyclic exampleComments ∧
    ∃ res, getAllCommentDescendants "A" exampleComments = some res ∧
      (∀ x, x ∈ res ↔ DescOf exampleComments "A" x) ∧ ∀ x ∈ res, x.id ≠ "A" := by
  have hA : Acyclic exampleComments := acyclic_of_rank _ exampleRank (by decide)
  have h := claim2_descendants_thread exampleComments (mkComment "A" "p1" none) hA
    (by decide) rfl
  exact ⟨hA, h.2.2⟩

/-- C10: the cascade delete is framed — with target `c` and post `p`, every
comment other than `c` and the members of `getAllCommentDescendants(c, L)`
(over the freshly fetched list `L` of post `p`) survives, nothing new
appears, and no post's `commentCount` other than `p`'s moves. -/
theorem claim10_deleteComment_frame (commentId postId : String) (s : Store)
    (ds : List Comment)
    (hds : getAllCommentDescendants commentId (commentsOfPost postId s) = some ds)
    (hpost : postExists postId s = true) :
    ∃ s', deleteComment commentId postId s = some (Except.ok (s', ds.length + 1)) ∧
      (∀ c ∈ s.comments, c.id ≠ commentId → (∀ d ∈ ds, c.id ≠ d.id) →
        c ∈ s'.comments) ∧
      (∀ c ∈ s'.comments, c ∈ s.comments) ∧
      ∀ q, q ≠ postId → postCount q s' = postCount q s := by
  obtain ⟨s', h1, h2, _, h4⟩ := deleteComment_ok hds hpost
  refine ⟨s', h1, ?_, ?_, h4⟩
  · intro c hc hne hnd
    rw [h2]
    refine List.mem_filter.mpr ⟨hc, ?_⟩
    rw [List.all_eq_true]
    intro i hi
    rcases List.mem_cons.mp hi with rfl | hi'
    · simpa using hne
    · obtain ⟨d, hd, rfl⟩ := List.mem_map.mp hi'
      simpa using hnd d hd
  · intro c hc
    rw [h2] at hc
    exact (List.mem_filter.mp hc).1

/-- Witness for C10 on the synthetic thread and store. -/
theorem claim10_witness :
    ∃ s', deleteComment "A" "p1" exampleStore = some (Except.ok (s', 5)) ∧
      (∀ c ∈ exampleStore.comments, c.id ≠ "A" →
        (∀ d ∈ [mkComment "B" "p1" (some "A"), mkComment "B2" "p1" (some "A"),
            mkComment "C" "p1" (some "B"), mkComment "D" "p1" (some "C")],
          c.id ≠ d.id) →
        c ∈ s'.comments) ∧
      (∀ c ∈ s'.comments, c ∈ exampleStore.comments) ∧
      ∀ q, q ≠ "p1" → postCount q s' = postCount q exampleStore := by
  have h := claim10_deleteComment_frame "A" "p1" exampleStore
    [mkComment "B" "p1" (some "A"), mkComment "B2" "p1" (some "A"),
      mkComment "C" "p1" (some "B"), mkComment "D" "p1" (some "C")]
    (by decide) (by decide)
  simpa using h

/-- C3 (divergence): re-deleting an already removed comment id does not
throw — both calls succeed, matching the first half of the claim — but the
second call still reports 1 record deleted and decrements the post's
`commentCount` again, driving it from 0 to -1 instead of leaving it
unchanged as the claim requires: `totalDeleted` is unconditionally
`descendants + 1` even when the target document no longer exists. -/
theorem claim3_redelete_decrements_again :
    ∃ s1 s2,
      deleteComment "c1" "p1" redeleteStore = some (Except.ok (s1, 1)) ∧
      postCount "p1" s1 = some 0 ∧ s1.comments = [] ∧
      deleteComment "c1" "p1" s1 = some (Except.ok (s2, 1)) ∧
      postCount "p1" s2 = some (-1) :=
  ⟨{ posts := [mkPost "p1" 0], comments := [] },
    { posts := [mkPost "p1" (-1)], comments := [] }, rfl, rfl, rfl, rfl, rfl⟩

/-- C4 (divergence): `addComment` writes only the new comment document; the
`posts` collection — and with it every post's `commentCount`, including the
owning post's — is untouched.  No code path increments the counter on
comment creation, so it does not grow by 1 as the claim requires. -/
theorem claim4_addComment_does_not_increment (newId : String) (now : Nat)
    (postId content authorId authorName authorUsername : String)
    (authorRole : Role) (parentId : Option String) (s : Store) :
    ((addComment newId now postId content authorId authorName authorUsername
        authorRole parentId s).1).posts = s.posts ∧
    (∀ q, postCount q ((addComment newId now postId content authorId authorName
        authorUsername authorRole parentId s).1) = postCount q s) ∧
    postCount "p1" ((addComment "c9" 0 "p1" "hi" "a" "A" "a" Role.user none
        exampleStore).1) = postCount "p1" exampleStore :=
  ⟨rfl, fun _ => rfl, rfl⟩

/-- C5 (counterexample): on a list holding one comment whose `parentId`
dangles to the id `"ghost"` — an id that occurs nowhere in the list — the
resolver returns that comment, not the empty collection the claim
promises for every absent id. -/
theorem claim5_counterexample :
    getAllCommentDescendants "ghost" [mkComment "x1" "p1" (some "ghost")] =
      some [mkComment "x1" "p1" (some "ghost")] ∧
    ([mkComment "x1" "p1" (some "ghost")].map Comment.id).contains "ghost" = false ∧
    some [mkComment "x1" "p1" (some "ghost")] ≠ some ([] : List Comment) := by
  decide

/-- C5 (amended): for every comment list and every id that no comment of
the list references as its parent — in particular the id of a leaf comment,
or an id absent from a list without dangling parent references — the
resolver returns the empty collection and raises no error. -/
theorem claim5_no_parent_ref_empty (cid : String) (L : List Comment)
    (h : ∀ c ∈ L, c.parentId ≠ some cid) :
    getAllCommentDescendants cid L = some [] := by
  show descendantsF (L.length + 1) cid L = some []
  rw [descendantsF_succ]
  have hemp : (L.filter fun c => c.parentId == some cid) = [] := by
    rw [List.filter_eq_nil_iff]
    intro c hc
    simpa using h c hc
  rw [hemp]
  rfl

/-- Witness for C5: the leaf `D` and an unknown id on the synthetic
thread both resolve to the empty collection. -/
theorem claim5_witness :
    (∀ c ∈ exampleComments, c.parentId ≠ some "D") ∧
    getAllCommentDescendants "D" exampleComments = some [] ∧
    getAllCommentDescendants "nonexistent-id" exampleComments = some [] :=
  ⟨by decide, claim5_no_parent_ref_empty "D" exampleComments (by decide),
    claim5_no_parent_ref_empty "nonexistent-id" exampleComments (by decide)⟩

/-- C6: on every acyclic comment list the resolver terminates for every
target id: the canonical run succeeds, and its value is stable under every
larger recursion allowance — no upper bound on thread depth is assumed
beyond what acyclicity itself provides. -/
theorem claim6_terminates_on_acyclic (L : List Comment) (hA : Acyclic L)
    (cid : String) :
    ∃ res, getAllCommentDescendants cid L = some res ∧
      ∀ fuel, L.length + 1 ≤ fuel → descendantsF fuel cid L = some res :=
  getAllCommentDescendants_total hA cid

/-- Witness for C6 on the synthetic thread. -/
theorem claim6_witness :
    ∃ res, getAllCommentDescendants "A" exampleComments = some res ∧
      ∀ fuel, exampleComments.length + 1 ≤ fuel →
        descendantsF fuel "A" exampleComments = some res :=
  claim6_terminates_on_acyclic exampleComments
    (acyclic_of_rank _ exampleRank (by decide)) "A"

/-- C8 (counterexample): `createUser` successfully registers `"JDoe_99"` on
an empty user store, storing the lowercased `"jdoe_99"` — but the
service-level existence check for the raw string `"JDoe_99"` then reports
the name as available, not taken: the store query matches the raw string
exactly while the stored value is lowercased. -/
theorem claim8_counterexample :
    createUser "u1" "e@x.com" "J" "D" "JDoe_99" 0 [] = Except.ok [jdoeDoc] ∧
    checkUsernameExists "JDoe_99" [jdoeDoc] = false :=
  ⟨rfl, by decide⟩

/-- C8 (amended): registering `"JDoe_99"` stores it as `"jdoe_99"`; after
the registration succeeds, an existence check for `"jdoe_99"` reports
taken, and a check for `"JDoe_99"` routed through the signup form — which
lowercases the typed value before querying — reports taken; but the direct
service-level check for the raw string `"JDoe_99"` reports available,
because the store query is case-sensitive. -/
theorem claim8_amended :
    ∃ users1, createUser "u1" "e@x.com" "J" "D" "JDoe_99" 0 [] = Except.ok users1 ∧
      users1.map UserDoc.username = ["jdoe_99"] ∧
      checkUsernameExists "jdoe_99" users1 = true ∧
      uiUsernameCheck "JDoe_99" users1 = true ∧
      checkUsernameExists "JDoe_99" users1 = false :=
  ⟨[jdoeDoc], rfl, by decide, by decide, by decide, by decide⟩

/-- C9: mention tokenisation splits content on `@` followed by word
characters into alternating literal and mention segments: the sample
content produces exactly the three segments with the single mention
`"@jdoe"`, and any content containing no `@` is a single literal segment
equal to the input. -/
theorem claim9_mention_tokenization (content : String)
    (h : ∀ c ∈ content.data, c ≠ '@') :
    renderContentWithMentions "great shot @jdoe nice!" =
      [Segment.literal "great shot ", Segment.mention "@jdoe",
        Segment.literal " nice!"] ∧
    ((renderContentWithMentions "great shot @jdoe nice!").filter
        fun seg => match seg with | Segment.mention _ => true | _ => false) =
      [Segment.mention "@jdoe"] ∧
    renderContentWithMentions content = [Segment.literal content] := by
  refine ⟨by decide, by decide, ?_⟩
  have hsplit : splitMentions content = [content] := by
    show (scanMentions (content.data.length + 1) [] content.data).map String.mk =
      [content]
    rw [scanMentions_no_at content.data (content.data.length + 1) []
      (Nat.lt_succ_self _) h]
    rfl
  simp only [renderContentWithMentions, hsplit, List.map_cons, List.map_nil]
  have hhead : (content.data.head? == some '@') = false := by
    cases hd : content.data with
    | nil => rfl
    | cons c cs =>
      have hc : c ≠ '@' := h c (hd ▸ List.mem_cons_self c cs)
      simp [hc]
  rw [hhead]
  rfl

/-- Witness for C9: content without `@` yields one literal segment. -/
theorem claim9_witness :
    renderContentWithMentions "no mentions here" =
      [Segment.literal "no mentions here"] :=
  (claim9_mention_tokenization "no mentions here" (by decide)).2.2

/-- C7: in the cascade's write sequence, every descendant delete precedes
the target comment's own delete, which precedes the counter decrement; the
descendant deletes have no ordering dependency among one another (any
permutation of them executes to the same result); if any descendant delete
fails, execution stops unsuccessfully without issuing the target's delete —
the target survives; and executing the sequence computes exactly what the
monolithic `deleteComment` returns. -/
theorem claim7_write_order (commentId postId : String) (s : Store)
    (ds : List Comment)
    (hds : getAllCommentDescendants commentId (commentsOfPost postId s) = some ds)
    (hA : Acyclic (commentsOfPost postId s)) :
    ∃ ops, deleteCommentOps commentId postId s = some ops ∧
      ops = (ds.map fun d => DbOp.delComment d.id) ++
        [DbOp.delComment commentId,
          DbOp.updCount postId (-(ds.length + 1 : Int))] ∧
      (∀ op ∈ ops.take ds.length, ∃ d ∈ ds, op = DbOp.delComment d.id) ∧
      ops[ds.length]? = some (DbOp.delComment commentId) ∧
      ops[ds.length + 1]? = some (DbOp.updCount postId (-(ds.length + 1 : Int))) ∧
      (∀ ds', ds.Perm ds' →
        runOps ((ds'.map fun d => DbOp.delComment d.id) ++
          [DbOp.delComment commentId,
            DbOp.updCount postId (-(ds.length + 1 : Int))]) s = runOps ops s) ∧
      (∀ bad : DbOp → Bool, (∃ d ∈ ds, bad (DbOp.delComment d.id) = true) →
        (runOpsWithFailures bad ops s).2 = false ∧
        ∀ c ∈ s.comments, c.id = commentId →
          c ∈ (runOpsWithFailures bad ops s).1.comments) ∧
      ∀ s3, runOps ops s = Except.ok s3 →
        deleteComment commentId postId s = some (Except.ok (s3, ds.length + 1)) := by
  have hops : deleteCommentOps commentId postId s =
      some ((ds.map fun d => DbOp.delComment d.id) ++
        [DbOp.delComment commentId,
          DbOp.updCount postId (-(ds.length + 1 : Int))]) := by
    simp only [deleteCommentOps, hds, Option.map_some']
  refine ⟨_, hops, rfl, ?_, ?_, ?_, ?_, ?_, ?_⟩
  · intro op hop
    rw [show ds.length = (ds.map fun d => DbOp.delComment d.id).length from
      (List.length_map _ _).symm, List.take_left] at hop
    obtain ⟨d, hd, rfl⟩ := List.mem_map.mp hop
    exact ⟨d, hd, rfl⟩
  · rw [List.getElem?_append_right (by simp)]
    simp
  · rw [List.getElem?_append_right (by simp)]
    simp
  · intro ds' hperm
    rw [runOps_deleteSeq, runOps_deleteSeq, ← foldl_del_perm hperm s]
  · intro bad hbad
    obtain ⟨hfail, hkeep⟩ := runOpsWithFailures_dels ds s
      [DbOp.delComment commentId,
        DbOp.updCount postId (-(ds.length + 1 : Int))] hbad
    refine ⟨hfail, ?_⟩
    intro c hc hcid
    refine hkeep c hc ?_
    intro d hd he
    have hdid : d.id = commentId := by rw [← he]; exact hcid
    have hdesc := descendantsF_sound (show descendantsF
      ((commentsOfPost postId s).length + 1) commentId (commentsOfPost postId s) =
        some ds from hds) hd
    have hup := descOf_upTo hdesc
    rw [← hdid] at hup
    exact hA d hup
  · intro s3 hrun
    rw [runOps_deleteSeq] at hrun
    simp only [deleteComment, hds, Option.map_some']
    have hcast : (-(((ds.length + 1 : Nat)) : Int)) = -(ds.length + 1 : Int) := by
      push_cast
      ring
    rw [hcast, hrun]
    rfl

/-- Witness for C7 on the synthetic thread and store. -/
theorem claim7_witness :
    ∃ ops, deleteCommentOps "A" "p1" exampleStore = some ops ∧
      ops = (exampleDescendants.map fun d => DbOp.delComment d.id) ++
        [DbOp.delComment "A",
          DbOp.updCount "p1" (-(exampleDescendants.length + 1 : Int))] ∧
      (∀ op ∈ ops.take exampleDescendants.length,
        ∃ d ∈ exampleDescendants, op = DbOp.delComment d.id) ∧
      ops[exampleDescendants.length]? = some (DbOp.delComment "A") ∧
      ops[exampleDescendants.length + 1]? =
        some (DbOp.updCount "p1" (-(exampleDescendants.length + 1 : Int))) ∧
      (∀ ds', exampleDescendants.Perm ds' →
        runOps ((ds'.map fun d => DbOp.delComment d.id) ++
          [DbOp.delComment "A",
            DbOp.updCount "p1" (-(exampleDescendants.length + 1 : Int))])
          exampleStore = runOps ops exampleStore) ∧
      (∀ bad : DbOp → Bool,
        (∃ d ∈ exampleDescendants, bad (DbOp.delComment d.id) = true) →
        (runOpsWithFailures bad ops exampleStore).2 = false ∧
        ∀ c ∈ exampleStore.comments, c.id = "A" →
          c ∈ (runOpsWithFailures bad ops exampleStore).1.comments) ∧
      ∀ s3, runOps ops exampleStore = Except.ok s3 →
        deleteComment "A" "p1" exampleStore =
          some (Except.ok (s3, exampleDescendants.length + 1)) :=
  claim7_write_order "A" "p1" exampleStore exampleDescendants (by decide)
    (acyclic_of_rank _ exampleRank (by decide))

end FrontOffice
